import Mathlib

/-!
Verification of the zson benchmark tools (`bench/simdjson_bench.cpp` and
`bench/tokenizer_bench.cpp`) against their natural-language specification.

The two programs are thin, single-threaded drivers around the external
simdjson library.  The shallow embedding below translates the code that
lives in this repository:

* `build_line_index` is translated literally from
  `simdjson_bench.cpp:36-48` (bytes are `Nat`, `10` is the newline byte).
* The filter loop of `simdjson_bench.cpp:104-143` is embedded as a fold
  over the sequence of per-document field-lookup results.  The document
  stream itself is produced by simdjson (external to this repository), so
  a document is modelled by what the loop observes of it: an
  `Option ℚ` — `some v` when `doc[field].get(val)` succeeds with value
  `v`, `none` on any miss (field absent, non-numeric, malformed).
* Numeric values (`double` in the source) are modelled as rationals; the
  claims under study concern the comparison structure of the predicate,
  not IEEE-754 rounding.
* stdout is modelled as the list of write events the program performs,
  and the timed region of each tool as an explicit event trace mirroring
  the statement order of `main`.
-/

/-- A raw byte buffer: the in-memory contents of the input file. -/
abbrev Buf := List Nat

/-- Inner loop of `build_line_index` (`simdjson_bench.cpp:41-46`).
`i` is the scan position, `s` the start of the current segment; the fuel
argument counts the remaining loop iterations (`i` runs from `0` to
`len` inclusive, so the initial fuel is `len + 1`). -/
def lineIdxGo (D : Buf) : Nat → Nat → Nat → List (Nat × Nat)
  | 0, _, _ => []
  | fuel + 1, i, s =>
    if i < D.length then
      if D.getD i 0 = 10 then
        (if s < i then [(s, i)] else []) ++ lineIdxGo D fuel (i + 1) (i + 1)
      else
        lineIdxGo D fuel (i + 1) s
    else
      if s < i then [(s, i)] else []

/-- `build_line_index` (`simdjson_bench.cpp:36-48`): ranges of
(start, exclusive-end) byte offsets for every non-empty line. -/
def build_line_index (D : Buf) : List (Nat × Nat) :=
  lineIdxGo D (D.length + 1) 0 0

/-- The byte span `buffer[start:end]` of a line range. -/
def sliceBytes (D : Buf) (p : Nat × Nat) : Buf :=
  (D.drop p.1).take (p.2 - p.1)

/-- The filter predicate of `simdjson_bench.cpp:118-120`:
`ok && val > threshold`, where a miss (`get` did not return `SUCCESS`)
never matches and a hit matches iff the value strictly exceeds the
threshold. -/
def matchesPred (r : Option ℚ) (threshold : ℚ) : Bool :=
  match r with
  | none => false
  | some v => decide (threshold < v)

/-- Mutable state of the benchmark loop of `simdjson_bench.cpp:104-133`. -/
structure FilterSt where
  total : Nat
  matched : Nat
  lineNo : Nat
  outBuf : Buf
deriving DecidableEq

/-- Initial loop state (`total = matched = line_no = 0`, empty `out_buf`). -/
def initSt : FilterSt := ⟨0, 0, 0, []⟩

/-- One iteration of the filter loop (`simdjson_bench.cpp:113-133`) on a
single document `d` (its field-lookup result). -/
def stepDoc (json : Buf) (lineIdx : List (Nat × Nat)) (countOnly quiet : Bool)
    (threshold : ℚ) (st : FilterSt) (d : Option ℚ) : FilterSt :=
  let st1 :=
    if matchesPred d threshold = true then
      { st with
        matched := st.matched + 1
        outBuf :=
          if countOnly = false ∧ quiet = false ∧ st.lineNo < lineIdx.length then
            st.outBuf ++ (sliceBytes json (lineIdx.getD st.lineNo (0, 0)) ++ [10])
          else
            st.outBuf }
    else st
  { st1 with total := st1.total + 1, lineNo := st1.lineNo + 1 }

/-- The whole benchmark loop: fold `stepDoc` over the stream of
field-lookup results. -/
def runDocs (json : Buf) (lineIdx : List (Nat × Nat)) (countOnly quiet : Bool)
    (threshold : ℚ) (docs : List (Option ℚ)) : FilterSt :=
  docs.foldl (stepDoc json lineIdx countOnly quiet threshold) initSt

/-- Number of documents of the stream that satisfy the filter predicate. -/
def countMatches (threshold : ℚ) : List (Option ℚ) → Nat
  | [] => 0
  | d :: rest => (if matchesPred d threshold = true then 1 else 0) + countMatches threshold rest

/-- The chunks appended to `out_buf` in output mode, starting from line
number `ln`: one chunk — the exact byte span of the corresponding line
range followed by one newline byte — per matching document that has a
corresponding line range. -/
def emitted (json : Buf) (lineIdx : List (Nat × Nat)) (threshold : ℚ) :
    List (Option ℚ) → Nat → List Buf
  | [], _ => []
  | d :: rest, ln =>
    (if matchesPred d threshold = true ∧ ln < lineIdx.length then
      [sliceBytes json (lineIdx.getD ln (0, 0)) ++ [10]]
    else []) ++ emitted json lineIdx threshold rest (ln + 1)

/-- A write to standard output performed by the filter tool. -/
inductive OutEvent where
  /-- the single bulk `fwrite` of the accumulated buffer (line 139) -/
  | bulk (bytes : Buf)
  /-- the `printf("%zu\n", matched)` count line (line 142) -/
  | countLine (n : Nat)
deriving DecidableEq

/-- The sequence of stdout writes of the filter tool
(`simdjson_bench.cpp:138-143`), in program order: the bulk flush of
`out_buf` (output mode only, skipped when empty) and then the count line
(`--count` only). -/
def filterStdout (json : Buf) (lineIdx : List (Nat × Nat)) (countOnly quiet : Bool)
    (threshold : ℚ) (docs : List (Option ℚ)) : List OutEvent :=
  let fin := runDocs json lineIdx countOnly quiet threshold docs
  (if countOnly = false ∧ quiet = false ∧ fin.outBuf ≠ [] then [OutEvent.bulk fin.outBuf] else [])
    ++ (if countOnly = true then [OutEvent.countLine fin.matched] else [])

/-- The NDJSON line `{"age":50} {"age":60}` (two JSON documents on one
physical line, no trailing newline): simdjson's `iterate_many` yields two
documents for it while `build_line_index` yields a single line range. -/
def twoDocsLine : Buf :=
  [123, 34, 97, 103, 101, 34, 58, 53, 48, 125, 32,
   123, 34, 97, 103, 101, 34, 58, 54, 48, 125]

/-- An event in the execution of the filter tool's `main`
(`simdjson_bench.cpp:111-155`), in program order. -/
inductive Ev where
  | timerStart
  | timerStop
  /-- an append of one record's bytes to the internal `out_buf` (loop body) -/
  | appendRec (bytes : Buf)
  /-- the bulk `fwrite` of `out_buf` to stdout (line 139) -/
  | outBulk (bytes : Buf)
  /-- the `printf` of the match count to stdout (line 142) -/
  | outCount (n : Nat)
  /-- the summary report written to stderr (line 147) -/
  | errReport
deriving DecidableEq

/-- Is the event a write to standard output? -/
def isOutWrite : Ev → Bool
  | Ev.outBulk _ => true
  | Ev.outCount _ => true
  | _ => false

/-- Trace of the filter tool from the first `now_secs()` call onwards:
timing starts (line 111), the loop runs — appending matching records
only to the internal buffer (lines 113-133) — timing stops (line 135),
then the stdout flush and count writes (lines 138-143) and the stderr
report (line 147). -/
def filterTimedTrace (json : Buf) (lineIdx : List (Nat × Nat)) (co q : Bool)
    (th : ℚ) (docs : List (Option ℚ)) : List Ev :=
  Ev.timerStart ::
    ((if co = false ∧ q = false
        then (emitted json lineIdx th docs 0).map Ev.appendRec else [])
      ++ Ev.timerStop ::
        ((if co = false ∧ q = false ∧ (runDocs json lineIdx co q th docs).outBuf ≠ []
            then [Ev.outBulk ((runDocs json lineIdx co q th docs).outBuf)] else [])
          ++ (if co = true
              then [Ev.outCount ((runDocs json lineIdx co q th docs).matched)] else [])
          ++ [Ev.errReport]))

/-- Outcome of a tool's `main`: the process exit code, whether a
diagnostic was written to stderr on a failure path, and whether
execution reached the timed phase. -/
structure MainOutcome where
  exitCode : Nat
  failDiag : Bool
  timerStarted : Bool
deriving DecidableEq

/-- Early phase of the filter tool (`simdjson_bench.cpp:67-96`): missing
filename, file-load failure and `iterate_many` setup failure each write
a diagnostic to stderr and return 1 before any timing starts; otherwise
`main` runs the timed loop and returns 0. -/
def filterMainOutcome (filenameGiven : Bool) (load : Option Buf) (setupOk : Bool) :
    MainOutcome :=
  if filenameGiven = false then ⟨1, true, false⟩
  else
    match load with
    | none => ⟨1, true, false⟩
    | some _ => if setupOk = false then ⟨1, true, false⟩ else ⟨0, false, true⟩

/-- Early phase of the tokenizer tool (`tokenizer_bench.cpp:39-52`):
missing filename and load failure return 1 with a stderr diagnostic; a
stream-setup failure is not fatal — the warm-up and timed passes merely
skip their loop bodies (the guards at lines 61 and 88) and `main` still
reaches the timed phase and returns 0. -/
def tokenizerMainOutcome (fileArgGiven : Bool) (load : Option Buf) (_setupOk : Bool) :
    MainOutcome :=
  if fileArgGiven = false then ⟨1, true, false⟩
  else
    match load with
    | none => ⟨1, true, false⟩
    | some _ => ⟨0, false, true⟩

/-- The iteration count of the tokenizer tool
(`tokenizer_bench.cpp:44`): `argc >= 3 ? atoi(argv[2]) : 5`, i.e. the
parsed second argument when present, 5 by default. -/
def itersOf : Option Int → Int
  | some n => n
  | none => 5

/-- The elapsed run times recorded by the timed loop
(`tokenizer_bench.cpp:81-105`): exactly one `push_back` per iteration;
the wall-clock duration of iteration `k` is the external input
`times k`. -/
def tokRunTimes (iters : Int) (times : Nat → ℚ) : List ℚ :=
  (List.range iters.toNat).map times

/-- `best = run_times[0]; for (t : run_times) if (t < best) best = t`
(`tokenizer_bench.cpp:108-109`). -/
def bestTime (ts : List ℚ) : ℚ :=
  ts.foldl (fun b t => if t < b then t else b) (ts.headD 0)

/-- Throughput `bytes / 1e9 / seconds`, in GB/s
(`tokenizer_bench.cpp:123-124` and `127-128`). -/
def gbps (size e : ℚ) : ℚ := size / 1000000000 / e

/-- `total_docs` accumulated over the timed iterations
(`tokenizer_bench.cpp:104`); the per-iteration document counts come from
the external document stream, given by `docsF`. -/
def tokTotalDocs (iters : Int) (docsF : Nat → Nat) : Nat :=
  ((List.range iters.toNat).map docsF).sum

/-- An event in the execution of the tokenizer tool's `main`. -/
inductive TEv where
  /-- the single `padded_string::load` (line 48) -/
  | loadFile (buf : Buf)
  /-- the untimed warm-up pass (lines 57-67) -/
  | warmupPass (buf : Buf)
  | timerStart
  /-- one timed pass: iteration `k` constructs fresh parser/stream
  number `k` and iterates over `buf` (lines 81-99) -/
  | timedPass (parserId : Nat) (buf : Buf)
  | timerStop
  /-- the stderr report (lines 112-124), carrying best and average
  throughput -/
  | reportBlock (bestTp avgTp : ℚ)
  /-- the single machine-readable key=value line printed to stdout
  (lines 127-128) -/
  | kvOut (gb bestSec : ℚ) (docs : Nat)
deriving DecidableEq

/-- Does the event load the input file? -/
def isLoadEv : TEv → Bool
  | TEv.loadFile _ => true
  | _ => false

/-- Is the event the warm-up pass? -/
def isWarmEv : TEv → Bool
  | TEv.warmupPass _ => true
  | _ => false

/-- Is the event a timed pass? -/
def isPassEv : TEv → Bool
  | TEv.timedPass _ _ => true
  | _ => false

/-- Is the event the stdout key=value line? -/
def isKvEv : TEv → Bool
  | TEv.kvOut _ _ _ => true
  | _ => false

/-- The parser/stream identifier of a timed pass, if any. -/
def passId : TEv → Option Nat
  | TEv.timedPass k _ => some k
  | _ => none

/-- The three events of timed iteration `k` (`tokenizer_bench.cpp:86-101`):
timer read, the pass with its freshly constructed parser and stream over
the shared buffer, timer read. -/
def timedBlock (json : Buf) (k : Nat) : List TEv :=
  [TEv.timerStart, TEv.timedPass k json, TEv.timerStop]

/-- Trace of the tokenizer tool after a successful load
(`tokenizer_bench.cpp:46-128`): the file is loaded once, the untimed
warm-up pass runs, each of the `iters` timed iterations runs between its
own pair of timer reads, and finally the stderr report and the stdout
key=value line are written. -/
def tokTrace (json : Buf) (iters : Int) (times : Nat → ℚ) (docsF : Nat → Nat) :
    List TEv :=
  TEv.loadFile json :: TEv.warmupPass json ::
    (((List.range iters.toNat).map (timedBlock json)).flatten
      ++ [TEv.reportBlock (gbps (json.length : ℚ) (bestTime (tokRunTimes iters times)))
            (gbps (json.length : ℚ) ((tokRunTimes iters times).sum / (iters : ℚ))),
          TEv.kvOut (gbps (json.length : ℚ) (bestTime (tokRunTimes iters times)))
            (bestTime (tokRunTimes iters times))
            (tokTotalDocs iters docsF / iters.toNat)])

/-- Every range produced by the scanner lies in the current tail of the
scan, is non-empty, newline-free, and maximal on both sides. -/
lemma lineIdxGo_mem (D : Buf) :
    ∀ (fuel i s : Nat), i + fuel = D.length + 1 → s ≤ i → i ≤ D.length →
    (∀ j, s ≤ j → j < i → D.getD j 0 ≠ 10) →
    ∀ p, p ∈ lineIdxGo D fuel i s →
      s ≤ p.1 ∧ p.1 < p.2 ∧ p.2 ≤ D.length ∧
      (∀ j, p.1 ≤ j → j < p.2 → D.getD j 0 ≠ 10) ∧
      (p.2 = D.length ∨ D.getD p.2 0 = 10) ∧
      (p.1 = s ∨ D.getD (p.1 - 1) 0 = 10) := by
  intro fuel
  induction fuel with
  | zero =>
    intro i s hif hsi hi hseg p hp
    simp [lineIdxGo] at hp
  | succ fuel ih =>
    intro i s hif hsi hi hseg p hp
    simp only [lineIdxGo] at hp
    by_cases hlt : i < D.length
    · rw [if_pos hlt] at hp
      by_cases hnl : D.getD i 0 = 10
      · rw [if_pos hnl] at hp
        rcases List.mem_append.1 hp with hp1 | hp2
        · by_cases hsi2 : s < i
          · rw [if_pos hsi2] at hp1
            simp at hp1
            subst hp1
            exact ⟨le_refl s, hsi2, le_of_lt hlt,
              fun j h1 h2 => hseg j h1 h2, Or.inr hnl, Or.inl rfl⟩
          · rw [if_neg hsi2] at hp1; simp at hp1
        · have h := ih (i + 1) (i + 1) (by omega) le_rfl (by omega)
            (by intro j h1 h2; omega) p hp2
          obtain ⟨ha, hb, hc, hd, he, hf⟩ := h
          refine ⟨by omega, hb, hc, hd, he, ?_⟩
          rcases hf with hf | hf
          · right
            rw [hf]
            simpa using hnl
          · right; exact hf
      · rw [if_neg hnl] at hp
        exact ih (i + 1) s (by omega) (by omega) (by omega)
          (by intro j h1 h2
              by_cases hji : j < i
              · exact hseg j h1 hji
              · have hje : j = i := by omega
                rw [hje]; exact hnl) p hp
    · rw [if_neg hlt] at hp
      have hieq : i = D.length := by omega
      by_cases hsi2 : s < i
      · rw [if_pos hsi2] at hp
        simp at hp
        subst hp
        exact ⟨le_refl s, hsi2, by omega,
          fun j h1 h2 => hseg j h1 h2, Or.inl hieq, Or.inl rfl⟩
      · rw [if_neg hsi2] at hp; simp at hp

/-- The ranges are produced in strictly ascending, non-overlapping order. -/
lemma lineIdxGo_pairwise (D : Buf) :
    ∀ (fuel i s : Nat), i + fuel = D.length + 1 → s ≤ i → i ≤ D.length →
    List.Pairwise (fun p q : Nat × Nat => p.2 < q.1) (lineIdxGo D fuel i s) := by
  intro fuel
  induction fuel with
  | zero => intro i s _ _ _; simp [lineIdxGo]
  | succ fuel ih =>
    intro i s hif hsi hi
    simp only [lineIdxGo]
    by_cases hlt : i < D.length
    · rw [if_pos hlt]
      by_cases hnl : D.getD i 0 = 10
      · rw [if_pos hnl]
        apply List.pairwise_append.2
        refine ⟨?_, ih (i + 1) (i + 1) (by omega) le_rfl (by omega), ?_⟩
        · by_cases hsi2 : s < i <;> simp [hsi2]
        · intro a ha b hb
          by_cases hsi2 : s < i
          · rw [if_pos hsi2] at ha
            simp at ha
            subst ha
            have hm := lineIdxGo_mem D fuel (i + 1) (i + 1) (by omega) le_rfl
              (by omega) (by intro j h1 h2; omega) b hb
            show i < b.1
            omega
          · rw [if_neg hsi2] at ha; simp at ha
      · rw [if_neg hnl]
        exact ih (i + 1) s (by omega) (by omega) (by omega)
    · rw [if_neg hlt]
      by_cases hsi2 : s < i <;> simp [hsi2]

/-- Every non-newline byte position is covered by some produced range. -/
lemma lineIdxGo_complete (D : Buf) :
    ∀ (fuel i s : Nat), i + fuel = D.length + 1 → s ≤ i → i ≤ D.length →
    (∀ j, s ≤ j → j < i → D.getD j 0 ≠ 10) →
    ∀ j, s ≤ j → j < D.length → D.getD j 0 ≠ 10 →
    ∃ p, p ∈ lineIdxGo D fuel i s ∧ p.1 ≤ j ∧ j < p.2 := by
  intro fuel
  induction fuel with
  | zero =>
    intro i s hif hsi hi hseg j hsj hjlen hj10
    exfalso; omega
  | succ fuel ih =>
    intro i s hif hsi hi hseg j hsj hjlen hj10
    simp only [lineIdxGo]
    by_cases hlt : i < D.length
    · rw [if_pos hlt]
      by_cases hnl : D.getD i 0 = 10
      · rw [if_pos hnl]
        by_cases hji : j < i
        · have hsi2 : s < i := by omega
          refine ⟨(s, i), ?_, ?_, ?_⟩
          · rw [if_pos hsi2]
            exact List.mem_append_left _ (by simp)
          · show s ≤ j; exact hsj
          · show j < i; exact hji
        · have hne : j ≠ i := by
            intro hje; rw [hje] at hj10; exact hj10 hnl
          have hij : i < j := by omega
          obtain ⟨p, hp, h1, h2⟩ := ih (i + 1) (i + 1) (by omega) le_rfl (by omega)
            (by intro j' h1 h2; omega) j (by omega) hjlen hj10
          exact ⟨p, List.mem_append_right _ hp, h1, h2⟩
      · rw [if_neg hnl]
        exact ih (i + 1) s (by omega) (by omega) (by omega)
          (by intro j' h1 h2
              by_cases hji : j' < i
              · exact hseg j' h1 hji
              · have hje : j' = i := by omega
                rw [hje]; exact hnl) j hsj hjlen hj10
    · rw [if_neg hlt]
      have hieq : i = D.length := by omega
      have hsi2 : s < i := by omega
      rw [if_pos hsi2]
      refine ⟨(s, i), by simp, ?_, ?_⟩
      · show s ≤ j; exact hsj
      · show j < i; omega

/-- C2: `build_line_index` cannot fail and, for every input buffer,
returns exactly one (start, exclusive-end) range per non-empty
newline-separated segment, in ascending non-overlapping order:
every range is non-empty (zero-length segments are dropped), in bounds,
newline-free and maximal on both sides (so a trailing segment not
terminated by a newline is still emitted), every non-newline byte is
covered by a range, and the empty buffer yields the empty sequence. -/
theorem build_line_index_correct (D : Buf) :
    build_line_index ([] : Buf) = []
    ∧ (∀ p ∈ build_line_index D,
        p.1 < p.2 ∧ p.2 ≤ D.length
        ∧ (∀ j, p.1 ≤ j → j < p.2 → D.getD j 0 ≠ 10)
        ∧ (p.2 = D.length ∨ D.getD p.2 0 = 10)
        ∧ (p.1 = 0 ∨ D.getD (p.1 - 1) 0 = 10))
    ∧ List.Pairwise (fun p q : Nat × Nat => p.2 < q.1) (build_line_index D)
    ∧ (∀ j, j < D.length → D.getD j 0 ≠ 10 →
        ∃ p, p ∈ build_line_index D ∧ p.1 ≤ j ∧ j < p.2) := by
  refine ⟨by decide, ?_, ?_, ?_⟩
  · intro p hp
    have h := lineIdxGo_mem D (D.length + 1) 0 0 (by omega) le_rfl (by omega)
      (by intro j h1 h2; omega) p hp
    exact ⟨h.2.1, h.2.2.1, h.2.2.2.1, h.2.2.2.2.1, h.2.2.2.2.2⟩
  · exact lineIdxGo_pairwise D (D.length + 1) 0 0 (by omega) le_rfl (by omega)
  · intro j hj hj10
    exact lineIdxGo_complete D (D.length + 1) 0 0 (by omega) le_rfl (by omega)
      (by intro j' h1 h2; omega) j (by omega) hj hj10

/-- Witness for C2 on the concrete buffer `"A\nB"`: position 2 (the byte
`B`) is covered by a produced range. -/
theorem build_line_index_correct_witness :
    ∃ p, p ∈ build_line_index [65, 10, 66] ∧ p.1 ≤ 2 ∧ 2 < p.2 :=
  (build_line_index_correct [65, 10, 66]).2.2.2 2 (by decide) (by decide)

/-- `matched` accumulates exactly the number of matching documents, in
every output mode. -/
lemma runFold_matched (json : Buf) (lineIdx : List (Nat × Nat)) (co q : Bool) (th : ℚ) :
    ∀ (docs : List (Option ℚ)) (st : FilterSt),
    (docs.foldl (stepDoc json lineIdx co q th) st).matched
      = st.matched + countMatches th docs := by
  intro docs
  induction docs with
  | nil => intro st; simp [countMatches]
  | cons d rest ih =>
    intro st
    rw [List.foldl_cons, ih]
    simp only [stepDoc, countMatches]
    by_cases h : matchesPred d th = true
    · simp [h]; omega
    · simp [h]

/-- `line_no` advances by one per document, in every output mode. -/
lemma runFold_lineNo (json : Buf) (lineIdx : List (Nat × Nat)) (co q : Bool) (th : ℚ) :
    ∀ (docs : List (Option ℚ)) (st : FilterSt),
    (docs.foldl (stepDoc json lineIdx co q th) st).lineNo = st.lineNo + docs.length := by
  intro docs
  induction docs with
  | nil => intro st; simp
  | cons d rest ih =>
    intro st
    rw [List.foldl_cons, ih]
    simp only [stepDoc]
    by_cases h : matchesPred d th = true
    · simp [h]; omega
    · simp [h]; omega

/-- `total` advances by one per document, in every output mode. -/
lemma runFold_total (json : Buf) (lineIdx : List (Nat × Nat)) (co q : Bool) (th : ℚ) :
    ∀ (docs : List (Option ℚ)) (st : FilterSt),
    (docs.foldl (stepDoc json lineIdx co q th) st).total = st.total + docs.length := by
  intro docs
  induction docs with
  | nil => intro st; simp
  | cons d rest ih =>
    intro st
    rw [List.foldl_cons, ih]
    simp only [stepDoc]
    by_cases h : matchesPred d th = true
    · simp [h]; omega
    · simp [h]; omega

/-- In output mode the loop appends exactly the `emitted` chunks. -/
lemma runFold_outBuf_output (json : Buf) (lineIdx : List (Nat × Nat)) (th : ℚ) :
    ∀ (docs : List (Option ℚ)) (st : FilterSt),
    (docs.foldl (stepDoc json lineIdx false false th) st).outBuf
      = st.outBuf ++ (emitted json lineIdx th docs st.lineNo).flatten := by
  intro docs
  induction docs with
  | nil => intro st; simp [emitted]
  | cons d rest ih =>
    intro st
    rw [List.foldl_cons, ih]
    simp only [stepDoc, emitted]
    by_cases hm : matchesPred d th = true
    · by_cases hl : st.lineNo < lineIdx.length
      · simp [hm, hl]
      · simp [hm, hl]
    · simp [hm]

/-- When `--count` or `--quiet` is given, the loop never touches the
output buffer. -/
lemma runFold_outBuf_silent (json : Buf) (lineIdx : List (Nat × Nat)) (co q : Bool)
    (th : ℚ) (hcq : co = true ∨ q = true) :
    ∀ (docs : List (Option ℚ)) (st : FilterSt),
    (docs.foldl (stepDoc json lineIdx co q th) st).outBuf = st.outBuf := by
  intro docs
  induction docs with
  | nil => intro st; simp
  | cons d rest ih =>
    intro st
    rw [List.foldl_cons, ih]
    simp only [stepDoc]
    have hng : ¬(co = false ∧ q = false ∧ st.lineNo < lineIdx.length) := by
      rcases hcq with h | h <;> simp [h]
    by_cases hm : matchesPred d th = true
    · simp [hm, hng]
    · simp [hm]

/-- Every chunk ever emitted is the exact byte span of one of the line
ranges, followed by a single newline byte. -/
lemma emitted_mem (json : Buf) (lineIdx : List (Nat × Nat)) (th : ℚ) :
    ∀ (docs : List (Option ℚ)) (ln : Nat) (c : Buf),
    c ∈ emitted json lineIdx th docs ln →
    ∃ p, p ∈ lineIdx ∧ c = sliceBytes json p ++ [10] := by
  intro docs
  induction docs with
  | nil => intro ln c hc; simp [emitted] at hc
  | cons d rest ih =>
    intro ln c hc
    simp only [emitted] at hc
    rcases List.mem_append.1 hc with h1 | h2
    · by_cases hg : matchesPred d th = true ∧ ln < lineIdx.length
      · rw [if_pos hg, List.mem_singleton] at h1
        subst h1
        refine ⟨lineIdx.getD ln (0, 0), ?_, rfl⟩
        rw [List.getD_eq_getElem?_getD, List.getElem?_eq_getElem hg.2, Option.getD_some]
        exact List.getElem_mem hg.2
      · rw [if_neg hg] at h1; simp at h1
    · exact ih (ln + 1) c h2

/-- When there are at most as many documents as indexed lines, the
number of emitted chunks equals the number of matching documents. -/
lemma emitted_length_le (json : Buf) (lineIdx : List (Nat × Nat)) (th : ℚ) :
    ∀ (docs : List (Option ℚ)) (ln : Nat), ln + docs.length ≤ lineIdx.length →
    (emitted json lineIdx th docs ln).length = countMatches th docs := by
  intro docs
  induction docs with
  | nil => intro ln h; simp [emitted, countMatches]
  | cons d rest ih =>
    intro ln h
    simp only [List.length_cons] at h
    simp only [emitted, countMatches]
    have hl : ln < lineIdx.length := by omega
    have ht := ih (ln + 1) (by omega)
    by_cases hm : matchesPred d th = true
    · simp [hm, hl, ht]; omega
    · simp [hm, ht]

/-- C3: the filter predicate is total, a miss never matches, a numeric
hit matches exactly when the value strictly exceeds the threshold, and a
value equal to the threshold does not match. -/
theorem matchesPred_correct (t v : ℚ) :
    matchesPred none t = false
    ∧ (matchesPred (some v) t = true ↔ v > t)
    ∧ matchesPred (some t) t = false := by
  refine ⟨rfl, ?_, ?_⟩
  · simp [matchesPred, gt_iff_lt]
  · simp [matchesPred, lt_irrefl]

/-- C1: in output mode the accumulated buffer is exactly the
concatenation, over the matching documents, of the exact byte span
`buffer[start:end]` of the document's corresponding line range followed
by one newline byte (every chunk is such a span, with no
re-serialization), and stdout receives this buffer as a single bulk
write after the loop (and nothing else). -/
theorem filter_output_exact (json : Buf) (lineIdx : List (Nat × Nat))
    (th : ℚ) (docs : List (Option ℚ)) :
    (runDocs json lineIdx false false th docs).outBuf
      = (emitted json lineIdx th docs 0).flatten
    ∧ (∀ c ∈ emitted json lineIdx th docs 0,
        ∃ p, p ∈ lineIdx ∧ c = sliceBytes json p ++ [10])
    ∧ filterStdout json lineIdx false false th docs
      = (if (runDocs json lineIdx false false th docs).outBuf = [] then []
         else [OutEvent.bulk ((runDocs json lineIdx false false th docs).outBuf)]) := by
  refine ⟨?_, fun c hc => emitted_mem json lineIdx th docs 0 c hc, ?_⟩
  · have h := runFold_outBuf_output json lineIdx th docs initSt
    simpa [runDocs, initSt] using h
  · by_cases h : (runDocs json lineIdx false false th docs).outBuf = []
    · simp [filterStdout, h]
    · simp [filterStdout, h]

/-- Witness for C1 on the buffer `"A\nB\n"` with documents
`[some 50, some 10]` and threshold 30: the single emitted chunk is the
exact first line span `[65]` plus a newline. -/
theorem filter_output_exact_witness :
    ∃ p, p ∈ build_line_index [65, 10, 66, 10]
      ∧ [65, 10] = sliceBytes [65, 10, 66, 10] p ++ [10] :=
  (filter_output_exact [65, 10, 66, 10] (build_line_index [65, 10, 66, 10]) 30
    [some 50, some 10]).2.1 [65, 10] (by decide)

/-- Counterexample to C4 as stated: on the single-line two-document
input `{"age":50} {"age":60}` with threshold 30, `--count` prints `2`
while the same invocation without `--count` emits exactly one line (the
second matching document has no corresponding line range and is dropped
by the `line_no < total_lines` guard). -/
theorem count_vs_output_cex :
    filterStdout twoDocsLine (build_line_index twoDocsLine) true false 30
      [some 50, some 60] = [OutEvent.countLine 2]
    ∧ (emitted twoDocsLine (build_line_index twoDocsLine) 30
        [some 50, some 60] 0).length = 1
    ∧ (2 : Nat) ≠ 1 := by decide

/-- C4 (amended): whenever the stream yields at most as many documents
as there are indexed lines — in particular for well-formed NDJSON with
one document per non-empty line — the integer printed under `--count`
equals the number of lines emitted by the same invocation without
`--count` and without `--quiet`. -/
theorem count_matches_output (json : Buf) (lineIdx : List (Nat × Nat))
    (th : ℚ) (docs : List (Option ℚ))
    (h : docs.length ≤ lineIdx.length) :
    filterStdout json lineIdx true false th docs
      = [OutEvent.countLine ((emitted json lineIdx th docs 0).length)] := by
  have h1 : (runDocs json lineIdx true false th docs).matched = countMatches th docs := by
    simpa [runDocs, initSt] using runFold_matched json lineIdx true false th docs initSt
  have h2 := emitted_length_le json lineIdx th docs 0 (by omega)
  simp [filterStdout, h1, h2]

/-- Witness for C4 (amended) on the two-line buffer `"A\nB\n"` with one
document per line. -/
theorem count_matches_output_witness :
    filterStdout [65, 10, 66, 10] (build_line_index [65, 10, 66, 10]) true false 30
      [some 50, some 10]
      = [OutEvent.countLine ((emitted [65, 10, 66, 10]
          (build_line_index [65, 10, 66, 10]) 30 [some 50, some 10] 0).length)] :=
  count_matches_output [65, 10, 66, 10] (build_line_index [65, 10, 66, 10]) 30
    [some 50, some 10] (by decide)

/-- C10: when both `--count` and `--quiet` are given, the output buffer
stays empty, no per-record bytes reach stdout (no bulk write event), and
the match count is still printed as the single stdout line: `--count`
wins regardless of `--quiet`. -/
theorem count_and_quiet (json : Buf) (lineIdx : List (Nat × Nat))
    (th : ℚ) (docs : List (Option ℚ)) :
    (runDocs json lineIdx true true th docs).outBuf = []
    ∧ filterStdout json lineIdx true true th docs
        = [OutEvent.countLine (countMatches th docs)]
    ∧ (∀ e ∈ filterStdout json lineIdx true true th docs,
        ∀ b, e ≠ OutEvent.bulk b) := by
  have hbuf : (runDocs json lineIdx true true th docs).outBuf = [] := by
    simpa [runDocs, initSt] using
      runFold_outBuf_silent json lineIdx true true th (Or.inl rfl) docs initSt
  have h1 : (runDocs json lineIdx true true th docs).matched = countMatches th docs := by
    simpa [runDocs, initSt] using runFold_matched json lineIdx true true th docs initSt
  have hstd : filterStdout json lineIdx true true th docs
      = [OutEvent.countLine (countMatches th docs)] := by
    simp [filterStdout, h1]
  refine ⟨hbuf, hstd, ?_⟩
  intro e he b
  rw [hstd, List.mem_singleton] at he
  subst he
  simp

/-- Witness for C10 at a concrete input: the printed count line is not a
bulk per-record write. -/
theorem count_and_quiet_witness :
    OutEvent.countLine 1 ≠ OutEvent.bulk [] :=
  (count_and_quiet [65, 10] (build_line_index [65, 10]) 30 [some 50]).2.2
    (OutEvent.countLine 1) (by decide) []

/-- An event found in a write-free prefix before `timerStop` lies in the
suffix after `timerStop` whenever it is an output write. -/
lemma after_stop_of_out {pre post : List Ev}
    (hpre : ∀ x ∈ pre, isOutWrite x = false) (e : Ev)
    (he : e ∈ pre ++ Ev.timerStop :: post) (hout : isOutWrite e = true) :
    e ∈ post := by
  rcases List.mem_append.1 he with h | h
  · rw [hpre e h] at hout; cases hout
  · rcases List.mem_cons.1 h with h | h
    · subst h; cases hout
    · exact h

/-- C5: in every output mode, the timed interval ends before any stdout
write: the trace splits at `timerStop` into a prefix containing no
output write (the timed region performs none) and every stdout write —
bulk flush or count line — occurs in the suffix after it. -/
theorem timed_region_no_output (json : Buf) (lineIdx : List (Nat × Nat)) (co q : Bool)
    (th : ℚ) (docs : List (Option ℚ)) (e : Ev)
    (he : e ∈ filterTimedTrace json lineIdx co q th docs)
    (hout : isOutWrite e = true) :
    ∃ k l, filterTimedTrace json lineIdx co q th docs = k ++ Ev.timerStop :: l
      ∧ e ∈ l ∧ ∀ x ∈ k, isOutWrite x = false := by
  have hk : ∀ x ∈ Ev.timerStart :: (if co = false ∧ q = false
      then (emitted json lineIdx th docs 0).map Ev.appendRec else []),
      isOutWrite x = false := by
    intro x hx
    rcases List.mem_cons.1 hx with h | h
    · subst h; rfl
    · by_cases hcq : co = false ∧ q = false
      · rw [if_pos hcq] at h
        obtain ⟨c, hc, rfl⟩ := List.mem_map.1 h
        rfl
      · rw [if_neg hcq] at h; simp at h
  have heq : filterTimedTrace json lineIdx co q th docs
      = (Ev.timerStart :: (if co = false ∧ q = false
          then (emitted json lineIdx th docs 0).map Ev.appendRec else []))
        ++ Ev.timerStop ::
          ((if co = false ∧ q = false ∧ (runDocs json lineIdx co q th docs).outBuf ≠ []
              then [Ev.outBulk ((runDocs json lineIdx co q th docs).outBuf)] else [])
            ++ (if co = true
                then [Ev.outCount ((runDocs json lineIdx co q th docs).matched)] else [])
            ++ [Ev.errReport]) := by
    simp [filterTimedTrace]
  refine ⟨_, _, heq, ?_, hk⟩
  rw [heq] at he
  exact after_stop_of_out hk e he hout

/-- Witness for C5: under `--count` on a one-document input, the printed
count line occurs after `timerStop` and the timed prefix performs no
output write. -/
theorem timed_region_no_output_witness :
    ∃ k l, filterTimedTrace [] [] true false 30 [some 50]
        = k ++ Ev.timerStop :: l
      ∧ Ev.outCount 1 ∈ l ∧ ∀ x ∈ k, isOutWrite x = false :=
  timed_region_no_output [] [] true false 30 [some 50] (Ev.outCount 1)
    (by decide) (by decide)

/-- Counterexample to C6 as stated: when the document stream cannot be
set up over a successfully loaded buffer, the tokenizer tool exits 0,
not 1. -/
theorem tokenizer_setup_failure_cex :
    (tokenizerMainOutcome true (some []) false).exitCode = 0 ∧ (0 : Nat) ≠ 1 := by
  decide

/-- C6 (amended): both tools exit 0 on success; the filter tool exits 1
— with a stderr diagnostic written, and before any timing — in exactly
the cases missing filename, load failure, or stream-setup failure; the
tokenizer tool exits 1 the same way in exactly the cases missing
filename or load failure, and ignores a stream-setup failure (exit 0). -/
theorem exit_codes_correct (fg : Bool) (load : Option Buf) (so : Bool) :
    ((filterMainOutcome fg load so).exitCode = 1
        ↔ (fg = false ∨ load = none ∨ so = false))
    ∧ ((filterMainOutcome fg load so).exitCode = 1
        ∨ (filterMainOutcome fg load so).exitCode = 0)
    ∧ ((filterMainOutcome fg load so).exitCode = 1 →
        (filterMainOutcome fg load so).failDiag = true
          ∧ (filterMainOutcome fg load so).timerStarted = false)
    ∧ ((tokenizerMainOutcome fg load so).exitCode = 1
        ↔ (fg = false ∨ load = none))
    ∧ ((tokenizerMainOutcome fg load so).exitCode = 1 →
        (tokenizerMainOutcome fg load so).failDiag = true
          ∧ (tokenizerMainOutcome fg load so).timerStarted = false)
    ∧ (fg = true → load ≠ none → (tokenizerMainOutcome fg load so).exitCode = 0) := by
  cases load <;> cases fg <;> cases so <;>
    simp [filterMainOutcome, tokenizerMainOutcome]

/-- Witness for C6 (amended): with the filename argument missing, the
filter tool writes a diagnostic and never starts timing. -/
theorem exit_codes_correct_witness :
    (filterMainOutcome false none true).failDiag = true
      ∧ (filterMainOutcome false none true).timerStarted = false :=
  (exit_codes_correct false none true).2.2.1 (by decide)

/-- Counting events across the flattened timed blocks: a predicate false
on all three block events counts zero. -/
lemma blocks_countP_zero (json : Buf) (p : TEv → Bool)
    (hs : p TEv.timerStart = false) (ht : p TEv.timerStop = false)
    (hp : ∀ k b, p (TEv.timedPass k b) = false) :
    ∀ l : List Nat, ((l.map (timedBlock json)).flatten).countP p = 0 := by
  intro l
  induction l with
  | nil => simp
  | cons x xs ih =>
    simp only [List.map_cons, List.flatten_cons, List.countP_append, ih, timedBlock]
    simp [List.countP_cons, hs, ht, hp]

/-- Each timed block contains exactly one timed pass. -/
lemma blocks_countP_pass (json : Buf) :
    ∀ l : List Nat, ((l.map (timedBlock json)).flatten).countP isPassEv = l.length := by
  intro l
  induction l with
  | nil => simp
  | cons x xs ih =>
    simp only [List.map_cons, List.flatten_cons, List.countP_append, ih, timedBlock]
    simp [List.countP_cons, isPassEv]
    omega

/-- The parser identifiers of the flattened timed blocks are exactly the
iteration numbers, in order. -/
lemma blocks_filterMap_passId (json : Buf) :
    ∀ l : List Nat, ((l.map (timedBlock json)).flatten).filterMap passId = l := by
  intro l
  induction l with
  | nil => simp
  | cons x xs ih =>
    simp only [List.map_cons, List.flatten_cons, List.filterMap_append, ih, timedBlock]
    simp [List.filterMap_cons, passId]

/-- C7: the tokenizer tool defaults to 5 iterations, loads the file
exactly once and first of all (before any timer read), performs exactly
one warm-up pass — untimed, since every `timerStart` occurs strictly
after it — followed by exactly `iters` timed passes, each over the same
in-memory buffer and each with a freshly constructed parser and stream
(the parser identifiers are exactly `0, …, iters-1`, all distinct). -/
theorem tokenizer_pass_structure (json : Buf) (iters : Int) (times : Nat → ℚ)
    (docsF : Nat → Nat) :
    itersOf none = 5
    ∧ (tokTrace json iters times docsF).head? = some (TEv.loadFile json)
    ∧ (tokTrace json iters times docsF).countP isLoadEv = 1
    ∧ (tokTrace json iters times docsF).countP isWarmEv = 1
    ∧ (tokTrace json iters times docsF).countP isPassEv = iters.toNat
    ∧ (∀ n, (tokTrace json iters times docsF)[n]? = some TEv.timerStart → 2 ≤ n)
    ∧ (tokTrace json iters times docsF).filterMap passId = List.range iters.toNat
    ∧ ((tokTrace json iters times docsF).filterMap passId).Nodup
    ∧ (∀ k b, TEv.timedPass k b ∈ tokTrace json iters times docsF → b = json) := by
  have hfm : (tokTrace json iters times docsF).filterMap passId
      = List.range iters.toNat := by
    simp only [tokTrace, List.filterMap_cons, List.filterMap_append,
      blocks_filterMap_passId json (List.range iters.toNat)]
    simp [passId]
  refine ⟨rfl, rfl, ?_, ?_, ?_, ?_, hfm, ?_, ?_⟩
  · simp only [tokTrace, List.countP_cons,
      blocks_countP_zero json isLoadEv rfl rfl (fun _ _ => rfl) (List.range iters.toNat),
      List.countP_append]
    simp [isLoadEv, List.countP_cons]
  · simp only [tokTrace, List.countP_cons,
      blocks_countP_zero json isWarmEv rfl rfl (fun _ _ => rfl) (List.range iters.toNat),
      List.countP_append]
    simp [isWarmEv, List.countP_cons]
  · simp only [tokTrace, List.countP_cons, List.countP_append,
      blocks_countP_pass json (List.range iters.toNat)]
    simp [isPassEv, List.countP_cons]
  · intro n hn
    match n with
    | 0 => simp [tokTrace] at hn
    | 1 => simp [tokTrace] at hn
    | n + 2 => omega
  · rw [hfm]; exact List.nodup_range iters.toNat
  · intro k b hb
    simp only [tokTrace, List.mem_cons, List.mem_append, List.mem_flatten] at hb
    rcases hb with h | h | ⟨⟨blk, hblk, hmem⟩ | h⟩
    · cases h
    · cases h
    · obtain ⟨x, hx, rfl⟩ := List.mem_map.1 hblk
      simp [timedBlock] at hmem
      rcases hmem with ⟨_, rfl⟩
      rfl
    · simp at h

/-- Witness for C7 at one iteration over the one-byte buffer `[65]`:
the single timed pass runs over that same buffer. -/
theorem tokenizer_pass_structure_witness : ([65] : Buf) = [65] :=
  (tokenizer_pass_structure [65] 1 (fun _ => 1)
    (fun _ => 2)).2.2.2.2.2.2.2.2 0 [65] (by decide)

/-- The running-minimum fold is bounded by its accumulator and by every
list element. -/
lemma foldlMin_le : ∀ (l : List ℚ) (a : ℚ),
    l.foldl (fun b t => if t < b then t else b) a ≤ a
    ∧ ∀ t ∈ l, l.foldl (fun b t => if t < b then t else b) a ≤ t := by
  intro l
  induction l with
  | nil => intro a; exact ⟨le_refl a, by simp⟩
  | cons x xs ih =>
    intro a
    rw [List.foldl_cons]
    constructor
    · refine le_trans (ih (if x < a then x else a)).1 ?_
      by_cases h : x < a
      · rw [if_pos h]; exact le_of_lt h
      · rw [if_neg h]
    · intro t ht
      rcases List.mem_cons.1 ht with h | h
      · subst h
        refine le_trans (ih (if t < a then t else a)).1 ?_
        by_cases h : t < a
        · rw [if_pos h]
        · rw [if_neg h]; exact le_of_not_lt h
      · exact (ih (if x < a then x else a)).2 t h

/-- The running-minimum fold returns its accumulator or a list element. -/
lemma foldlMin_mem : ∀ (l : List ℚ) (a : ℚ),
    l.foldl (fun b t => if t < b then t else b) a = a
      ∨ l.foldl (fun b t => if t < b then t else b) a ∈ l := by
  intro l
  induction l with
  | nil => intro a; exact Or.inl rfl
  | cons x xs ih =>
    intro a
    rw [List.foldl_cons]
    rcases ih (if x < a then x else a) with h | h
    · by_cases hx : x < a
      · right
        rw [h, if_pos hx]
        exact List.mem_cons_self x xs
      · left
        rw [h, if_neg hx]
    · right; exact List.mem_cons_of_mem x h

/-- `bestTime` computes the minimum of a nonempty run-time list. -/
lemma bestTime_spec (ts : List ℚ) (h : ts ≠ []) :
    bestTime ts ∈ ts ∧ ∀ t ∈ ts, bestTime ts ≤ t := by
  match ts, h with
  | x :: xs, _ =>
    constructor
    · rcases foldlMin_mem (x :: xs) ((x :: xs).headD 0) with h1 | h1
      · rw [bestTime, h1]; simp
      · rw [bestTime]; exact h1
    · exact (foldlMin_le (x :: xs) ((x :: xs).headD 0)).2

/-- C8: after the N timed runs, the best time is the minimum of the N
recorded run times, the stderr report carries throughput
`file_size / elapsed / 1e9` for the best run and for the average
(the sum of run times divided by N), and exactly one machine-readable
key=value line — its fields derived from the best run — is printed to
standard output. -/
theorem tokenizer_report (json : Buf) (iters : Int) (times : Nat → ℚ)
    (docsF : Nat → Nat) (h : tokRunTimes iters times ≠ []) :
    (bestTime (tokRunTimes iters times) ∈ tokRunTimes iters times
      ∧ ∀ t ∈ tokRunTimes iters times, bestTime (tokRunTimes iters times) ≤ t)
    ∧ (tokTrace json iters times docsF).countP isKvEv = 1
    ∧ TEv.kvOut (gbps (json.length : ℚ) (bestTime (tokRunTimes iters times)))
        (bestTime (tokRunTimes iters times))
        (tokTotalDocs iters docsF / iters.toNat) ∈ tokTrace json iters times docsF
    ∧ TEv.reportBlock (gbps (json.length : ℚ) (bestTime (tokRunTimes iters times)))
        (gbps (json.length : ℚ) ((tokRunTimes iters times).sum / (iters : ℚ)))
        ∈ tokTrace json iters times docsF := by
  refine ⟨bestTime_spec (tokRunTimes iters times) h, ?_, ?_, ?_⟩
  · simp only [tokTrace, List.countP_cons, List.countP_append,
      blocks_countP_zero json isKvEv rfl rfl (fun _ _ => rfl) (List.range iters.toNat)]
    simp [isKvEv, List.countP_cons]
  · simp [tokTrace]
  · simp [tokTrace]

/-- Witness for C8 with two timed runs of durations 1 and 2: the best
time is an element of the run times and bounds them from below. -/
theorem tokenizer_report_witness :
    bestTime (tokRunTimes 2 (fun k => (k : ℚ) + 1)) ∈ tokRunTimes 2 (fun k => (k : ℚ) + 1)
      ∧ ∀ t ∈ tokRunTimes 2 (fun k => (k : ℚ) + 1),
          bestTime (tokRunTimes 2 (fun k => (k : ℚ) + 1)) ≤ t :=
  (tokenizer_report [] 2 (fun k => (k : ℚ) + 1) (fun _ => 3) (by decide)).1

/-- C9: with an iteration count of at least 1 (the default 5 included),
the timed loop records one run time per iteration before the report
stage, so at least one entry exists, the read of `run_times[0]` is in
bounds, and the average divides by a nonzero iteration count. -/
theorem run_times_populated (iters : Int) (times : Nat → ℚ) (h : 1 ≤ iters) :
    (tokRunTimes iters times).length = iters.toNat
    ∧ 0 < (tokRunTimes iters times).length
    ∧ (tokRunTimes iters times)[0]? = some (times 0)
    ∧ iters.toNat ≠ 0
    ∧ 1 ≤ itersOf none := by
  have hn : iters.toNat = (iters.toNat - 1) + 1 := by omega
  refine ⟨by simp [tokRunTimes], ?_, ?_, by omega, by decide⟩
  · simp only [tokRunTimes, List.length_map, List.length_range]
    omega
  · rw [tokRunTimes, hn, List.range_succ_eq_map]
    simp

/-- Witness for C9 at the default iteration count 5. -/
theorem run_times_populated_witness :
    (tokRunTimes 5 (fun k => (k : ℚ))).length = (5 : Int).toNat
    ∧ 0 < (tokRunTimes 5 (fun k => (k : ℚ))).length
    ∧ (tokRunTimes 5 (fun k => (k : ℚ)))[0]? = some ((fun k => (k : ℚ)) 0)
    ∧ (5 : Int).toNat ≠ 0
    ∧ 1 ≤ itersOf none :=
  run_times_populated 5 (fun k => (k : ℚ)) (by decide)
